import Mathlib

/-!
Verification of the `aggregate` data-cleaning and rollup routine of the
sales-forecast dashboard (`src/App.tsx`).

The embedding is shallow: JavaScript values reaching `aggregate` (after the
CSV parser's dynamic typing) are modelled by `JSVal` — finite numbers as
exact rationals, strings, and `null`/`undefined`.  The JavaScript `NaN`
produced by `Number(...)` coercion is modelled by `Option ℚ` (with `none`
playing the role of `NaN`), date-time values by their millisecond timestamp
(`ℤ`), and the host primitives used by the code (`Number`, `new Date`,
`getFullYear`/`getMonth`, `padStart`, `localeCompare`, the stable
`Array.prototype.sort`, insertion-ordered `Map`) by executable Lean
functions over those carriers.  The single (implicit) time zone of the
model is UTC, so the "local" calendar fields coincide with the UTC ones.
-/

namespace SalesForecast

/-- A JavaScript value as it can appear in a parsed CSV record:
a finite number (idealised as an exact rational), a string, or
`null`/`undefined` (which the `??` chains in `aggregate` treat alike). -/
inductive JSVal where
  | vNum (x : ℚ)
  | vStr (s : String)
  | vNull
deriving DecidableEq

/-- A raw record produced by CSV parsing: an insertion-ordered mapping from
(normalised) header names to values.  JavaScript objects have unique keys;
lookup takes the first binding. -/
abbrev RawRecord := List (String × JSVal)

/-- Property access `r[k]`: `none` models JavaScript `undefined`
(key absent). -/
def getField : RawRecord → String → Option JSVal
  | [], _ => none
  | (k', v) :: rest, k => if k' = k then some v else getField rest k

/-- A chain `r.k₁ ?? r.k₂ ?? …`: the first binding that is present and not
`null`/`undefined`; `none` when the whole chain falls through (the chain
then evaluates to `undefined`). -/
def resolve (r : RawRecord) : List String → Option JSVal
  | [] => none
  | k :: ks =>
    match getField r k with
    | none => resolve r ks
    | some JSVal.vNull => resolve r ks
    | some v => some v

/-- Decimal digit list to a natural number. -/
def digitsToNat (ds : List Char) : ℕ :=
  ds.foldl (fun n c => 10 * n + (c.toNat - '0'.toNat)) 0

/-- Model of the host primitive `Number(string)`: trims whitespace, the
empty string coerces to `0`, and an optional sign followed by a decimal
literal (integer part and/or fraction, optional exponent) coerces to its
value; anything else is `NaN` (`none`).  (Exotic host formats such as hex
literals are outside the model's string domain.) -/
def strToNum (s : String) : Option ℚ :=
  let cs := ((s.toList.dropWhile Char.isWhitespace).reverse.dropWhile
    Char.isWhitespace).reverse
  match cs with
  | [] => some 0
  | _ =>
    let sgn : ℚ := match cs with
      | '-' :: _ => -1
      | _ => 1
    let cs₁ : List Char := match cs with
      | '-' :: t => t
      | '+' :: t => t
      | _ => cs
    let ip := cs₁.takeWhile Char.isDigit
    let r₁ := cs₁.dropWhile Char.isDigit
    let fp : List Char := match r₁ with
      | '.' :: t => t.takeWhile Char.isDigit
      | _ => []
    let r₂ : List Char := match r₁ with
      | '.' :: t => t.dropWhile Char.isDigit
      | _ => r₁
    if ip = [] ∧ fp = [] then none
    else
      let mant : ℚ := sgn * ((digitsToNat ip : ℚ) +
        (digitsToNat fp : ℚ) / 10 ^ fp.length)
      match r₂ with
      | [] => some mant
      | e :: t =>
        if e = 'e' ∨ e = 'E' then
          let esgn : ℤ := match t with
            | '-' :: _ => -1
            | _ => 1
          let t₁ : List Char := match t with
            | '-' :: t' => t'
            | '+' :: t' => t'
            | _ => t
          let ed := t₁.takeWhile Char.isDigit
          let r₃ := t₁.dropWhile Char.isDigit
          if ed = [] ∨ r₃ ≠ [] then none
          else some (mant * (10 : ℚ) ^ (esgn * (digitsToNat ed : ℤ)))
        else none

/-- Model of the host primitive `Number(v)` on the value domain of the
model.  `Number(null) = 0`; note that the `??` chains in `aggregate` skip
`null`, so in the code under study `Number` is never actually applied
to `null`. -/
def jsToNumber : JSVal → Option ℚ
  | JSVal.vNum x => some x
  | JSVal.vStr s => strToNum s
  | JSVal.vNull => some 0

/-- Coercion `Number` applied to the result of a `??` chain: an exhausted chain is
`undefined` and `Number(undefined)` is `NaN`. -/
def jsNumberOpt : Option JSVal → Option ℚ
  | none => none
  | some v => jsToNumber v

/-- Truncation toward zero, as in the `TimeClip` step of `new Date(number)`. -/
def ratTrunc (x : ℚ) : ℤ := if 0 ≤ x then ⌊x⌋ else -⌊-x⌋

/-- Days since 1970-01-01 of the proleptic-Gregorian civil date `y-m-d`
(Howard Hinnant's `days_from_civil`). -/
def daysFromCivil (y : ℤ) (m d : ℕ) : ℤ :=
  let y' : ℤ := if m ≤ 2 then y - 1 else y
  let era : ℤ := Int.fdiv y' 400
  let yoe : ℕ := (y' - era * 400).toNat
  let mp : ℕ := if 2 < m then m - 3 else m + 9
  let doy : ℕ := (153 * mp + 2) / 5 + d - 1
  let doe : ℕ := yoe * 365 + yoe / 4 - yoe / 100 + doy
  era * 146097 + (doe : ℤ) - 719468

/-- Civil year and month (1–12) of a day count since 1970-01-01
(Howard Hinnant's `civil_from_days`). -/
def civilFromDays (z : ℤ) : ℤ × ℕ :=
  let z' := z + 719468
  let era := Int.fdiv z' 146097
  let doe : ℕ := (z' - era * 146097).toNat
  let yoe : ℕ := (doe - doe / 1460 + doe / 36524 - doe / 146096) / 365
  let y : ℤ := (yoe : ℤ) + era * 400
  let doy : ℕ := doe - (365 * yoe + yoe / 4 - yoe / 100)
  let mp : ℕ := (5 * doy + 2) / 153
  let m : ℕ := if mp < 10 then mp + 3 else mp - 9
  (if m ≤ 2 then y + 1 else y, m)

def msPerDay : ℤ := 86400000

/-- Model of `Date.prototype.getFullYear` (model time zone = UTC). -/
def getFullYear (t : ℤ) : ℤ := (civilFromDays (Int.fdiv t msPerDay)).1

/-- Model of `Date.prototype.getMonth`, 0-based as in JavaScript
(model time zone = UTC). -/
def getMonth (t : ℤ) : ℕ := (civilFromDays (Int.fdiv t msPerDay)).2 - 1

def isLeap (y : ℤ) : Bool := (y % 4 == 0 && y % 100 != 0) || y % 400 == 0

def daysInMonth (y : ℤ) (m : ℕ) : ℕ :=
  if m = 2 then (if isLeap y then 29 else 28)
  else if m = 4 ∨ m = 6 ∨ m = 9 ∨ m = 11 then 30 else 31

/-- Model of host date-string parsing, on the date-only ISO form
`YYYY-MM-DD` (the string date domain of the model): the timestamp of
midnight UTC of that civil date, `none` (an invalid date) when the digits
are not a real calendar date. -/
def parseISODate (s : String) : Option ℤ :=
  match s.toList with
  | [y1, y2, y3, y4, '-', m1, m2, '-', d1, d2] =>
    if ([y1, y2, y3, y4, m1, m2, d1, d2].all Char.isDigit) then
      let y : ℤ := (digitsToNat [y1, y2, y3, y4] : ℤ)
      let m := digitsToNat [m1, m2]
      let d := digitsToNat [d1, d2]
      if 1 ≤ m ∧ m ≤ 12 ∧ 1 ≤ d ∧ d ≤ daysInMonth y m then
        some (daysFromCivil y m d * msPerDay)
      else none
    else none
  | _ => none

/-- Function `toDate` (App.tsx lines 33–36): `new Date(d)` followed by the
`isNaN(dt.getTime())` check; `some t` is a valid date with timestamp `t`,
`none` an invalid one.  A number is clipped to the representable range,
a string goes through date parsing.  (`new Date(null)` would be the epoch,
but the `??` chain feeding `toDate` skips `null`.) -/
def toDate : JSVal → Option ℤ
  | JSVal.vNum x =>
    let t := ratTrunc x
    if t.natAbs ≤ 8640000000000000 then some t else none
  | JSVal.vStr s => parseISODate s
  | JSVal.vNull => some 0

/-- Function `toDate` applied to the result of a `??` chain (`undefined` when the
chain is exhausted; `new Date(undefined)` is invalid). -/
def toDateOpt : Option JSVal → Option ℤ
  | none => none
  | some v => toDate v

/-- Model of `String(n).padStart(2, "0")` for the month part of `monthKey`. -/
def padStart2 (s : String) : String :=
  if 2 ≤ s.length then s else String.mk (List.replicate (2 - s.length) '0' ++ s.toList)

/-- Function `monthKey` (App.tsx lines 38–40):
`` `${dt.getFullYear()}-${String(dt.getMonth() + 1).padStart(2, "0")}` ``. -/
def monthKey (t : ℤ) : String :=
  toString (getFullYear t) ++ "-" ++ padStart2 (toString (getMonth t + 1))

/-- A cleaned, typed row (App.tsx line 10); `date` is the millisecond
timestamp of the (valid) date. -/
structure Row where
  date : ℤ
  product : JSVal
  units : ℚ
  unit_price : ℚ
  sales : ℚ
deriving DecidableEq

/-- The `dateRaw` of a record: `r.date ?? r.order_date ?? r.tarih`. -/
def dateRawOf (r : RawRecord) : Option JSVal :=
  resolve r ["date", "order_date", "tarih"]

/-- The resolved date of a record: `toDate(dateRaw)`. -/
def dateOf (r : RawRecord) : Option ℤ := toDateOpt (dateRawOf r)

/-- The resolved product: `r.product ?? r.ürün ?? r.Product ?? "Unknown"`. -/
def productOf (r : RawRecord) : JSVal :=
  (resolve r ["product", "ürün", "Product"]).getD (JSVal.vStr "Unknown")

/-- The resolved units: `Number(r.units ?? r.quantity ?? r.adet ?? r.Units
?? r.Quantity)`; `none` is `NaN`. -/
def unitsOf (r : RawRecord) : Option ℚ :=
  jsNumberOpt (resolve r ["units", "quantity", "adet", "Units", "Quantity"])

/-- The resolved unit price: `Number(r.unit_price ?? r.price ?? r.Unit_Price
?? r.Price)`; `none` is `NaN`. -/
def unitPriceOf (r : RawRecord) : Option ℚ :=
  jsNumberOpt (resolve r ["unit_price", "price", "Unit_Price", "Price"])

/-- The `rawSales` chain: `r.sales ?? r.revenue ?? r.ciro ?? r.Sales ?? r.Revenue`. -/
def rawSalesOf (r : RawRecord) : Option JSVal :=
  resolve r ["sales", "revenue", "ciro", "Sales", "Revenue"]

/-- The `NaN`-propagating product, for `units * unit_price`. -/
def numMul : Option ℚ → Option ℚ → Option ℚ
  | some x, some y => some (x * y)
  | _, _ => none

/-- The `numericSales` computation (App.tsx lines 77–80):
`rawSales == null || rawSales === "" || isNaN(Number(rawSales))
  ? units * unit_price : Number(rawSales)`. -/
def salesOf (r : RawRecord) : Option ℚ :=
  match rawSalesOf r with
  | none => numMul (unitsOf r) (unitPriceOf r)
  | some v =>
    if v = JSVal.vStr "" ∨ jsToNumber v = none then
      numMul (unitsOf r) (unitPriceOf r)
    else jsToNumber v

/-- The body of the cleaning `map` (App.tsx lines 45–86): `none` when the
record is rejected by the validity check
`!date || Number.isNaN(units) || Number.isNaN(unit_price) ||
Number.isNaN(numericSales)`. -/
def toRow (r : RawRecord) : Option Row :=
  match dateOf r, unitsOf r, unitPriceOf r, salesOf r with
  | some d, some u, some p, some s => some ⟨d, productOf r, u, p, s⟩
  | _, _, _, _ => none

/-- Stable insertion of `x` into `l`: `x` goes in front of the first
element `y` with `le x y`, so an element inserted from further left in the
input stays in front of the elements it ties with. -/
def insertLe (le : α → α → Bool) (x : α) : List α → List α
  | [] => [x]
  | y :: ys => if le x y then x :: y :: ys else y :: insertLe le x ys

/-- Model of `Array.prototype.sort` with a comparator: ECMAScript requires
the sort to be stable and to order elements consistently with the
comparator, which (for the total comparators used in `aggregate`)
characterises the output uniquely; a stable insertion sort realises it. -/
def sortLe (le : α → α → Bool) : List α → List α
  | [] => []
  | x :: xs => insertLe le x (sortLe le xs)

/-- Model of `Map.prototype.get` on an insertion-ordered map. -/
def mapGet [DecidableEq κ] : List (κ × α) → κ → Option α
  | [], _ => none
  | (k', v) :: rest, k => if k' = k then some v else mapGet rest k

/-- Model of `Map.prototype.set` on an insertion-ordered map: an existing key keeps
its position, a new key is appended (JavaScript `Map` iteration order). -/
def mapSet [DecidableEq κ] : List (κ × α) → κ → α → List (κ × α)
  | [], k, v => [(k, v)]
  | (k', v') :: rest, k, v =>
    if k' = k then (k', v) :: rest else (k', v') :: mapSet rest k v

/-- One line of the product-totals output (App.tsx lines 95–101); the
`percent` field is added to every element by the `forEach` pass. -/
structure ProductTotal where
  product : JSVal
  total_sales : ℚ
  percent : ℚ
deriving DecidableEq

/-- Type `MonthlyRow` (App.tsx line 11). -/
structure MonthlyRow where
  key : String
  sales : ℚ
  transactions : ℕ
  pct_change : Option ℚ
deriving DecidableEq

/-- The comparator `(a, b) => a.date.getTime() - b.date.getTime()`. -/
def rowLe (a b : Row) : Bool := decide (a.date ≤ b.date)

/-- The comparator `(a, b) => b.total_sales - a.total_sales`
(descending). -/
def prodDescLe (a b : JSVal × ℚ) : Bool := decide (b.2 ≤ a.2)

/-- Code-point lexicographic "less or equal" on character lists. -/
def charListLe : List Char → List Char → Bool
  | [], _ => true
  | _ :: _, [] => false
  | a :: as, b :: bs =>
    if a.toNat < b.toNat then true
    else if b.toNat < a.toNat then false
    else charListLe as bs

/-- Code-point lexicographic "strictly less" on character lists. -/
def charListLt : List Char → List Char → Bool
  | [], [] => false
  | [], _ :: _ => true
  | _ :: _, [] => false
  | a :: as, b :: bs =>
    if a.toNat < b.toNat then true
    else if b.toNat < a.toNat then false
    else charListLt as bs

/-- Code-point order on strings: the model of `localeCompare` on the
digits-and-hyphen month keys (where locale collation and code-point order
agree). -/
def strLe (a b : String) : Bool := charListLe a.toList b.toList

/-- Strict code-point order on strings. -/
def strLt (a b : String) : Bool := charListLt a.toList b.toList

/-- The comparator `(a, b) => a.key.localeCompare(b.key)`. -/
def monLe (a b : MonthlyRow) : Bool := strLe a.key b.key

/-- The `rowsUnsorted` list (App.tsx lines 44–87): clean + type + drop invalid. -/
def rowsUnsorted (data : List RawRecord) : List Row := data.filterMap toRow

/-- The `rows` list (App.tsx line 89): valid rows sorted ascending by timestamp. -/
def sortedRows (data : List RawRecord) : List Row :=
  sortLe rowLe (rowsUnsorted data)

/-- One step of the product-totals accumulation (App.tsx line 93):
`productTotals.set(r.product, (productTotals.get(r.product) || 0) + r.sales)`. -/
def prodStep (m : List (JSVal × ℚ)) (r : Row) : List (JSVal × ℚ) :=
  mapSet m r.product ((mapGet m r.product).getD 0 + r.sales)

/-- The `productTotals` map after the accumulation loop. -/
def productPairs (rows : List Row) : List (JSVal × ℚ) :=
  rows.foldl prodStep []

/-- The array `Array.from(productTotals, …).sort(…)` (App.tsx lines 95–96). -/
def productPairsSorted (rows : List Row) : List (JSVal × ℚ) :=
  sortLe prodDescLe (productPairs rows)

/-- The `totalAll` reduction (App.tsx line 98):
`productTotalsArr.reduce((s, x) => s + x.total_sales, 0)`. -/
def totalAllOf (rows : List Row) : ℚ :=
  (productPairsSorted rows).foldl (fun s x => s + x.2) 0

/-- The product totals array after the `forEach` pass that sets
`x.percent = totalAll ? (x.total_sales / totalAll) * 100 : 0`
(App.tsx lines 99–101). -/
def productTotalsArrOf (rows : List Row) : List ProductTotal :=
  (productPairsSorted rows).map fun x =>
    ⟨x.1, x.2, if totalAllOf rows = 0 then 0 else x.2 / totalAllOf rows * 100⟩

/-- One step of the monthly rollup loop (App.tsx lines 105–111). -/
def monthStep (m : List (String × MonthlyRow)) (r : Row) :
    List (String × MonthlyRow) :=
  let key := monthKey r.date
  let cur := (mapGet m key).getD ⟨key, 0, 0, none⟩
  mapSet m key ⟨cur.key, cur.sales + r.sales, cur.transactions + 1, cur.pct_change⟩

/-- The `monthlyMap` after the rollup loop. -/
def monthlyMapOf (rows : List Row) : List (String × MonthlyRow) :=
  rows.foldl monthStep []

/-- The array `Array.from(monthlyMap.values()).sort((a, b) =>
a.key.localeCompare(b.key))` (App.tsx line 112). -/
def monthlySortedOf (rows : List Row) : List MonthlyRow :=
  sortLe monLe ((monthlyMapOf rows).map Prod.snd)

/-- One assignment of the pct-change loop (App.tsx lines 115–118), for the
bucket at index `i ≥ 1` given the sales of the bucket before it
(`prev = monthly[i-1].sales || 0` is the identity on a rational, so it is
the previous bucket's sales): `prev ? ((monthly[i].sales - prev) / prev)
* 100 : 0`. -/
def setPctVal (prevSales : ℚ) (y : MonthlyRow) : MonthlyRow :=
  ⟨y.key, y.sales, y.transactions,
    some (if prevSales = 0 then 0 else (y.sales - prevSales) / prevSales * 100)⟩

/-- The pct-change loop over the tail of the bucket list, carrying the
previous bucket. -/
def addPctGo (prev : MonthlyRow) : List MonthlyRow → List MonthlyRow
  | [] => []
  | y :: ys =>
    let y' := setPctVal prev.sales y
    y' :: addPctGo y' ys

/-- The pct-change loop (App.tsx lines 115–118): the first bucket is left
untouched (its `pct_change` stays absent), every later bucket gets
`pct_change` assigned. -/
def addPct : List MonthlyRow → List MonthlyRow
  | [] => []
  | x :: xs => x :: addPctGo x xs

/-- The `monthly` output for a given (sorted) row list. -/
def monthlyOf (rows : List Row) : List MonthlyRow :=
  addPct (monthlySortedOf rows)

/-- The series `y = monthly.map(m => m.sales)` (App.tsx line 121). -/
def yOf (rows : List Row) : List ℚ := (monthlyOf rows).map (·.sales)

/-- The baseline `naive = y.length ? y[y.length - 1] : 0` (App.tsx line 122). -/
def naiveOf (rows : List Row) : ℚ := (yOf rows).getLast?.getD 0

/-- The window `k = Math.min(3, y.length || 0)` (App.tsx line 123); `y.length || 0`
is `y.length`. -/
def kOf (rows : List Row) : ℕ := min 3 (yOf rows).length

/-- The baseline `ma = k ? y.slice(-k).reduce((s, v) => s + v, 0) / k : 0`
(App.tsx line 124); for `0 < k ≤ y.length`, `y.slice(-k)` is the last `k`
elements. -/
def maOf (rows : List Row) : ℚ :=
  if kOf rows ≠ 0 then
    ((yOf rows).drop ((yOf rows).length - kOf rows)).foldl (· + ·) 0 / (kOf rows : ℚ)
  else 0

/-- The output record of `aggregate` (App.tsx line 126). -/
structure AggResult where
  rows : List Row
  productTotalsArr : List ProductTotal
  monthly : List MonthlyRow
  naive : ℚ
  ma : ℚ
deriving DecidableEq

/-- Function `aggregate` (App.tsx lines 42–127). -/
def aggregate (data : List RawRecord) : AggResult :=
  let rows := sortedRows data
  ⟨rows, productTotalsArrOf rows, monthlyOf rows, naiveOf rows, maOf rows⟩

/-! ### The stable sort model: permutation, sortedness, stability -/

theorem insertLe_perm (le : α → α → Bool) (x : α) (l : List α) :
    (insertLe le x l).Perm (x :: l) := by
  induction l with
  | nil => rfl
  | cons y ys ih =>
    by_cases h : le x y = true
    · simp [insertLe, h]
    · simp only [insertLe, h, if_false, Bool.false_eq_true]
      exact (ih.cons y).trans (List.Perm.swap x y ys)

theorem sortLe_perm (le : α → α → Bool) (l : List α) : (sortLe le l).Perm l := by
  induction l with
  | nil => rfl
  | cons x xs ih => exact (insertLe_perm le x (sortLe le xs)).trans (ih.cons x)

theorem mem_sortLe {le : α → α → Bool} {l : List α} {a : α} :
    a ∈ sortLe le l ↔ a ∈ l :=
  (sortLe_perm le l).mem_iff

theorem mem_insertLe {le : α → α → Bool} {l : List α} {a x : α} :
    a ∈ insertLe le x l ↔ a = x ∨ a ∈ l := by
  rw [(insertLe_perm le x l).mem_iff, List.mem_cons]

theorem insertLe_pairwise {le : α → α → Bool}
    (htrans : ∀ a b c, le a b = true → le b c = true → le a c = true)
    (htot : ∀ a b, le a b || le b a)
    (x : α) {l : List α} (hl : l.Pairwise (fun a b => le a b = true)) :
    (insertLe le x l).Pairwise (fun a b => le a b = true) := by
  induction l with
  | nil => simp [insertLe]
  | cons y ys ih =>
    rcases List.pairwise_cons.mp hl with ⟨hy, hys⟩
    by_cases h : le x y = true
    · simp only [insertLe, h, if_true]
      refine List.pairwise_cons.mpr ⟨?_, hl⟩
      intro z hz
      rcases List.mem_cons.mp hz with rfl | hz
      · exact h
      · exact htrans x y z h (hy z hz)
    · simp only [insertLe, h, if_false, Bool.false_eq_true]
      refine List.pairwise_cons.mpr ⟨?_, ih hys⟩
      intro z hz
      have hxy : le x y = false := by
        cases hxy : le x y
        · rfl
        · exact absurd hxy h
      rcases mem_insertLe.mp hz with hzx | hz
      · rw [hzx]
        have := htot x y
        rw [hxy] at this
        simpa using this
      · exact hy z hz

theorem sortLe_pairwise {le : α → α → Bool}
    (htrans : ∀ a b c, le a b = true → le b c = true → le a c = true)
    (htot : ∀ a b, le a b || le b a) (l : List α) :
    (sortLe le l).Pairwise (fun a b => le a b = true) := by
  induction l with
  | nil => simp [sortLe]
  | cons x xs ih => exact insertLe_pairwise htrans htot x ih

theorem filter_insertLe_neg {le : α → α → Bool} (p : α → Bool) {x : α}
    (hx : p x = false) (l : List α) :
    (insertLe le x l).filter p = l.filter p := by
  induction l with
  | nil => simp [insertLe, hx]
  | cons y ys ih =>
    by_cases h : le x y = true
    · simp [insertLe, h, hx]
    · simp only [insertLe, h, if_false, Bool.false_eq_true]
      cases hy : p y <;> simp [List.filter_cons, hy, ih]

theorem filter_insertLe_pos {le : α → α → Bool} (p : α → Bool) {x : α}
    (hx : p x = true) {l : List α}
    (h : ∀ y ∈ l, p y = true → le x y = true) :
    (insertLe le x l).filter p = x :: l.filter p := by
  induction l with
  | nil => simp [insertLe, hx]
  | cons y ys ih =>
    by_cases hle : le x y = true
    · simp [insertLe, hle, hx]
    · cases hy : p y with
      | true => exact absurd (h y (List.mem_cons_self y ys) hy) hle
      | false =>
        simp only [insertLe, hle, if_false, Bool.false_eq_true]
        rw [List.filter_cons_of_neg (by simp [hy]),
          List.filter_cons_of_neg (by simp [hy])]
        exact ih fun z hz hpz => h z (List.mem_cons_of_mem y hz) hpz

/-- Stability of the sort model, as a filter property: the subsequence of
elements satisfying `p` is unchanged by sorting, whenever any two
`p`-elements tie under the comparator. -/
theorem sortLe_filter_stable {le : α → α → Bool} (p : α → Bool)
    (htie : ∀ a b, p a = true → p b = true → le a b = true) (l : List α) :
    (sortLe le l).filter p = l.filter p := by
  induction l with
  | nil => rfl
  | cons x xs ih =>
    cases hx : p x with
    | false =>
      rw [sortLe, filter_insertLe_neg p hx, ih, List.filter_cons_of_neg (by simp [hx])]
    | true =>
      rw [sortLe,
        filter_insertLe_pos p hx (fun y hy hpy => htie x y hx hpy), ih,
        List.filter_cons_of_pos hx]

/-! ### The code-point string order used by the `localeCompare` model -/

theorem charListLe_total : ∀ as bs, charListLe as bs || charListLe bs as := by
  intro as
  induction as with
  | nil => intro bs; simp [charListLe]
  | cons a as ih =>
    intro bs
    cases bs with
    | nil => simp [charListLe]
    | cons b bs =>
      simp only [charListLe]
      rcases Nat.lt_trichotomy a.toNat b.toNat with h | h | h
      · simp [h, Nat.not_lt.mpr (Nat.le_of_lt h)]
      · simp [h, ih bs]
      · simp [h, Nat.not_lt.mpr (Nat.le_of_lt h)]

theorem charListLe_trans : ∀ as bs cs, charListLe as bs = true →
    charListLe bs cs = true → charListLe as cs = true := by
  intro as
  induction as with
  | nil => intro bs cs _ _; simp [charListLe]
  | cons a as ih =>
    intro bs cs h₁ h₂
    cases bs with
    | nil => simp [charListLe] at h₁
    | cons b bs =>
      cases cs with
      | nil => simp [charListLe] at h₂
      | cons c cs =>
        simp only [charListLe] at h₁ h₂ ⊢
        split_ifs at h₁ h₂ ⊢ with hab hba hbc hcb hac hca
        all_goals first
          | rfl
          | omega
          | (exact ih bs cs h₁ h₂)

theorem ne_of_charListLt : ∀ {as bs}, charListLt as bs = true → as ≠ bs := by
  intro as
  induction as with
  | nil => intro bs h; cases bs <;> simp [charListLt] at h ⊢
  | cons a as ih =>
    intro bs h
    cases bs with
    | nil => simp [charListLt] at h
    | cons b bs =>
      simp only [charListLt] at h
      split_ifs at h with hab hba
      · intro hc; cases hc; omega
      · intro hc
        injection hc with h1 h2
        exact ih h (by rw [h2])

theorem charListLt_of_le_of_ne : ∀ as bs, charListLe as bs = true → as ≠ bs →
    charListLt as bs = true := by
  intro as
  induction as with
  | nil =>
    intro bs h hne
    cases bs with
    | nil => exact absurd rfl hne
    | cons b bs => simp [charListLt]
  | cons a as ih =>
    intro bs h hne
    cases bs with
    | nil => simp [charListLe] at h
    | cons b bs =>
      simp only [charListLe] at h
      simp only [charListLt]
      split_ifs at h ⊢ with hab hba
      · rfl
      · have hab' : a = b := by
          have : a.toNat = b.toNat := by omega
          have h0 := Char.ofNat_toNat a
          rw [← h0, this, Char.ofNat_toNat]
        refine ih bs h ?_
        intro hc
        exact hne (by rw [hab', hc])

theorem strLe_total (a b : String) : strLe a b || strLe b a :=
  charListLe_total a.toList b.toList

theorem strLe_trans {a b c : String} (h₁ : strLe a b = true)
    (h₂ : strLe b c = true) : strLe a c = true :=
  charListLe_trans a.toList b.toList c.toList h₁ h₂

theorem strLt_of_strLe_of_ne {a b : String} (h : strLe a b = true)
    (hne : a ≠ b) : strLt a b = true :=
  charListLt_of_le_of_ne a.toList b.toList h
    (fun hc => hne (by rwa [← String.toList_inj]))

/-! ### The insertion-ordered map model -/

theorem mem_mapSet [DecidableEq κ] {m : List (κ × α)} {k : κ} {v : α}
    {e : κ × α} (he : e ∈ mapSet m k v) : e ∈ m ∨ (e.1 = k ∧ e.2 = v) := by
  induction m with
  | nil =>
    simp only [mapSet, List.mem_singleton] at he
    exact Or.inr (by simp [he])
  | cons kv rest ih =>
    obtain ⟨k', v'⟩ := kv
    by_cases hk : k' = k
    · simp only [mapSet, hk, if_true, List.mem_cons] at he
      rcases he with rfl | he
      · exact Or.inr ⟨hk ▸ rfl, rfl⟩
      · exact Or.inl (List.mem_cons_of_mem _ he)
    · simp only [mapSet, hk, if_false, List.mem_cons] at he
      rcases he with rfl | he
      · exact Or.inl (List.mem_cons_self _ _)
      · rcases ih he with h | h
        · exact Or.inl (List.mem_cons_of_mem _ h)
        · exact Or.inr h

theorem mapGet_mem [DecidableEq κ] {m : List (κ × α)} {k : κ} {v : α}
    (h : mapGet m k = some v) : (k, v) ∈ m := by
  induction m with
  | nil => simp [mapGet] at h
  | cons kv rest ih =>
    obtain ⟨k', v'⟩ := kv
    by_cases hk : k' = k
    · simp only [mapGet, hk, if_true, Option.some.injEq] at h
      subst hk; subst h
      exact List.mem_cons_self _ _
    · simp only [mapGet, hk, if_false] at h
      exact List.mem_cons_of_mem _ (ih h)

theorem mem_keys_mapSet [DecidableEq κ] {m : List (κ × α)} {k a : κ} {v : α}
    (h : a ∈ (mapSet m k v).map Prod.fst) : a = k ∨ a ∈ m.map Prod.fst := by
  rcases List.mem_map.mp h with ⟨e, he, rfl⟩
  rcases mem_mapSet he with h' | ⟨h', -⟩
  · exact Or.inr (List.mem_map_of_mem _ h')
  · exact Or.inl h'

theorem nodup_keys_mapSet [DecidableEq κ] {m : List (κ × α)} {k : κ} {v : α}
    (h : (m.map Prod.fst).Nodup) : ((mapSet m k v).map Prod.fst).Nodup := by
  induction m with
  | nil => simp [mapSet]
  | cons kv rest ih =>
    obtain ⟨k', v'⟩ := kv
    by_cases hk : k' = k
    · simpa only [mapSet, hk, if_true, List.map_cons] using h
    · simp only [List.map_cons, List.nodup_cons] at h
      simp only [mapSet, hk, if_false, List.map_cons, List.nodup_cons]
      refine ⟨?_, ih h.2⟩
      intro hc
      rcases mem_keys_mapSet hc with rfl | hc
      · exact hk rfl
      · exact h.1 hc

/-! ### The product-totals accumulation -/

theorem mapSet_getD_add_sum [DecidableEq κ] (m : List (κ × ℚ)) (k : κ) (s : ℚ) :
    ((mapSet m k ((mapGet m k).getD 0 + s)).map Prod.snd).sum
      = (m.map Prod.snd).sum + s := by
  induction m with
  | nil => simp [mapSet, mapGet]
  | cons kv rest ih =>
    obtain ⟨k', v⟩ := kv
    by_cases hk : k' = k
    · simp only [mapGet, hk, if_true, Option.getD_some, mapSet, List.map_cons,
        List.sum_cons]
      ring
    · simp only [mapGet, hk, if_false, mapSet, List.map_cons, List.sum_cons, ih]
      ring

theorem prodStep_sum (m : List (JSVal × ℚ)) (r : Row) :
    ((prodStep m r).map Prod.snd).sum = (m.map Prod.snd).sum + r.sales :=
  mapSet_getD_add_sum m r.product r.sales

theorem foldl_prodStep_sum : ∀ (l : List Row) (acc : List (JSVal × ℚ)),
    ((l.foldl prodStep acc).map Prod.snd).sum
      = (acc.map Prod.snd).sum + (l.map (·.sales)).sum := by
  intro l
  induction l with
  | nil => intro acc; simp
  | cons r rs ih =>
    intro acc
    simp only [List.foldl_cons, ih, prodStep_sum, List.map_cons, List.sum_cons]
    ring

/-! ### The monthly rollup accumulation -/

theorem monthStep_def (m : List (String × MonthlyRow)) (r : Row) :
    monthStep m r = mapSet m (monthKey r.date)
      ⟨((mapGet m (monthKey r.date)).getD ⟨monthKey r.date, 0, 0, none⟩).key,
       ((mapGet m (monthKey r.date)).getD ⟨monthKey r.date, 0, 0, none⟩).sales + r.sales,
       ((mapGet m (monthKey r.date)).getD ⟨monthKey r.date, 0, 0, none⟩).transactions + 1,
       ((mapGet m (monthKey r.date)).getD ⟨monthKey r.date, 0, 0, none⟩).pct_change⟩ :=
  rfl

theorem mapSet_month_sales_sum (m : List (String × MonthlyRow)) (k : String) (s : ℚ) :
    ((mapSet m k
        ⟨((mapGet m k).getD ⟨k, 0, 0, none⟩).key,
         ((mapGet m k).getD ⟨k, 0, 0, none⟩).sales + s,
         ((mapGet m k).getD ⟨k, 0, 0, none⟩).transactions + 1,
         ((mapGet m k).getD ⟨k, 0, 0, none⟩).pct_change⟩).map
      (fun e => e.2.sales)).sum
      = (m.map (fun e => e.2.sales)).sum + s := by
  induction m with
  | nil => simp [mapSet, mapGet]
  | cons kv rest ih =>
    obtain ⟨k', v⟩ := kv
    by_cases hk : k' = k
    · simp only [mapGet, hk, if_true, Option.getD_some, mapSet, List.map_cons,
        List.sum_cons]
      ring
    · simp only [mapGet, hk, if_false, mapSet, List.map_cons, List.sum_cons, ih]
      ring

theorem mapSet_month_trans_sum (m : List (String × MonthlyRow)) (k : String) (s : ℚ) :
    ((mapSet m k
        ⟨((mapGet m k).getD ⟨k, 0, 0, none⟩).key,
         ((mapGet m k).getD ⟨k, 0, 0, none⟩).sales + s,
         ((mapGet m k).getD ⟨k, 0, 0, none⟩).transactions + 1,
         ((mapGet m k).getD ⟨k, 0, 0, none⟩).pct_change⟩).map
      (fun e => e.2.transactions)).sum
      = (m.map (fun e => e.2.transactions)).sum + 1 := by
  induction m with
  | nil => simp [mapSet, mapGet]
  | cons kv rest ih =>
    obtain ⟨k', v⟩ := kv
    by_cases hk : k' = k
    · simp only [mapGet, hk, if_true, Option.getD_some, mapSet, List.map_cons,
        List.sum_cons]
      omega
    · simp only [mapGet, hk, if_false, mapSet, List.map_cons, List.sum_cons, ih]
      omega

theorem foldl_monthStep_sales_sum : ∀ (l : List Row) (acc : List (String × MonthlyRow)),
    ((l.foldl monthStep acc).map (fun e => e.2.sales)).sum
      = (acc.map (fun e => e.2.sales)).sum + (l.map (·.sales)).sum := by
  intro l
  induction l with
  | nil => intro acc; simp
  | cons r rs ih =>
    intro acc
    rw [List.foldl_cons, ih, monthStep_def, mapSet_month_sales_sum]
    simp only [List.map_cons, List.sum_cons]
    ring

theorem foldl_monthStep_trans_sum : ∀ (l : List Row) (acc : List (String × MonthlyRow)),
    ((l.foldl monthStep acc).map (fun e => e.2.transactions)).sum
      = (acc.map (fun e => e.2.transactions)).sum + l.length := by
  intro l
  induction l with
  | nil => intro acc; simp
  | cons r rs ih =>
    intro acc
    rw [List.foldl_cons, ih, monthStep_def, mapSet_month_trans_sum]
    simp only [List.length_cons]
    omega

/-- The per-entry invariant of the monthly map: the stored bucket's `key`
field is its map key, its transaction count is positive, and the pct-change
loop has not yet run. -/
def entryInv (e : String × MonthlyRow) : Prop :=
  e.2.key = e.1 ∧ 1 ≤ e.2.transactions ∧ e.2.pct_change = none

theorem monthStep_entryInv {m : List (String × MonthlyRow)} {r : Row}
    (h : ∀ e ∈ m, entryInv e) : ∀ e ∈ monthStep m r, entryInv e := by
  intro e he
  rw [monthStep_def] at he
  rcases mem_mapSet he with he' | ⟨h1, h2⟩
  · exact h e he'
  · cases hg : mapGet m (monthKey r.date) with
    | none =>
      rw [hg] at h2
      simp only [Option.getD_none] at h2
      exact ⟨by rw [h2, h1], by rw [h2], by rw [h2]⟩
    | some v =>
      have hv := h _ (mapGet_mem hg)
      rw [hg] at h2
      simp only [Option.getD_some] at h2
      refine ⟨?_, by rw [h2]; simp, by rw [h2]; exact hv.2.2⟩
      rw [h2, h1]
      exact hv.1

theorem foldl_monthStep_entryInv : ∀ (l : List Row) (acc : List (String × MonthlyRow)),
    (∀ e ∈ acc, entryInv e) → ∀ e ∈ l.foldl monthStep acc, entryInv e := by
  intro l
  induction l with
  | nil => intro acc h; exact h
  | cons r rs ih =>
    intro acc h
    exact ih (monthStep acc r) (monthStep_entryInv h)

theorem monthStep_origin {rs : List Row} {m : List (String × MonthlyRow)} {r : Row}
    (hr : r ∈ rs) (h : ∀ e ∈ m, ∃ r' ∈ rs, e.1 = monthKey r'.date) :
    ∀ e ∈ monthStep m r, ∃ r' ∈ rs, e.1 = monthKey r'.date := by
  intro e he
  rw [monthStep_def] at he
  rcases mem_mapSet he with he' | ⟨h1, -⟩
  · exact h e he'
  · exact ⟨r, hr, h1⟩

theorem foldl_monthStep_origin {rs : List Row} : ∀ (l : List Row)
    (acc : List (String × MonthlyRow)), (∀ r ∈ l, r ∈ rs) →
    (∀ e ∈ acc, ∃ r' ∈ rs, e.1 = monthKey r'.date) →
    ∀ e ∈ l.foldl monthStep acc, ∃ r' ∈ rs, e.1 = monthKey r'.date := by
  intro l
  induction l with
  | nil => intro acc _ h; exact h
  | cons r rs' ih =>
    intro acc hl h
    exact ih (monthStep acc r)
      (fun r' hr' => hl r' (List.mem_cons_of_mem _ hr'))
      (monthStep_origin (hl r (List.mem_cons_self _ _)) h)

theorem foldl_monthStep_nodupKeys : ∀ (l : List Row) (acc : List (String × MonthlyRow)),
    ((acc.map Prod.fst).Nodup) → (((l.foldl monthStep acc).map Prod.fst)).Nodup := by
  intro l
  induction l with
  | nil => intro acc h; exact h
  | cons r rs ih =>
    intro acc h
    refine ih (monthStep acc r) ?_
    rw [monthStep_def]
    exact nodup_keys_mapSet h

/-! ### The pct-change loop -/

theorem addPctGo_map_eq {β : Type} (f : MonthlyRow → β)
    (hf : ∀ s y, f (setPctVal s y) = f y) :
    ∀ (l : List MonthlyRow) (prev : MonthlyRow),
      (addPctGo prev l).map f = l.map f := by
  intro l
  induction l with
  | nil => intro prev; rfl
  | cons y ys ih =>
    intro prev
    simp only [addPctGo, List.map_cons, hf, ih]

theorem addPct_map_eq {β : Type} (f : MonthlyRow → β)
    (hf : ∀ s y, f (setPctVal s y) = f y) (l : List MonthlyRow) :
    (addPct l).map f = l.map f := by
  cases l with
  | nil => rfl
  | cons x xs => simp only [addPct, List.map_cons, addPctGo_map_eq f hf]

theorem addPct_map_key (l : List MonthlyRow) :
    (addPct l).map (·.key) = l.map (·.key) :=
  addPct_map_eq (fun b => b.key) (fun _ _ => rfl) l

theorem addPct_map_sales (l : List MonthlyRow) :
    (addPct l).map (·.sales) = l.map (·.sales) :=
  addPct_map_eq (fun b => b.sales) (fun _ _ => rfl) l

theorem addPct_map_transactions (l : List MonthlyRow) :
    (addPct l).map (·.transactions) = l.map (·.transactions) :=
  addPct_map_eq (fun b => b.transactions) (fun _ _ => rfl) l

theorem addPctGo_head_pct : ∀ {l : List MonthlyRow} {prev : MonthlyRow}
    {b : MonthlyRow}, (addPctGo prev l).get? 0 = some b →
    b.pct_change = some (if prev.sales = 0 then 0
      else (b.sales - prev.sales) / prev.sales * 100) := by
  intro l prev b h
  cases l with
  | nil => simp [addPctGo] at h
  | cons y ys =>
    simp only [addPctGo, List.get?_cons_zero, Option.some.injEq] at h
    subst h
    rfl

theorem addPctGo_pct : ∀ (l : List MonthlyRow) (prev : MonthlyRow) (i : ℕ)
    {a b : MonthlyRow}, (addPctGo prev l).get? i = some a →
    (addPctGo prev l).get? (i + 1) = some b →
    b.pct_change = some (if a.sales = 0 then 0
      else (b.sales - a.sales) / a.sales * 100) := by
  intro l
  induction l with
  | nil => intro prev i a b ha _; simp [addPctGo] at ha
  | cons y ys ih =>
    intro prev i a b ha hb
    cases i with
    | zero =>
      simp only [addPctGo, List.get?_cons_zero, Option.some.injEq] at ha
      simp only [addPctGo, List.get?_cons_succ] at hb
      have := addPctGo_head_pct hb
      rw [this, ← ha]
    | succ j =>
      simp only [addPctGo, List.get?_cons_succ] at ha hb
      exact ih _ j ha hb

/-! ### Comparator facts and small algebra helpers -/

theorem rowLe_trans : ∀ a b c : Row, rowLe a b = true → rowLe b c = true →
    rowLe a c = true := by
  intro a b c h₁ h₂
  simp only [rowLe, decide_eq_true_eq] at h₁ h₂ ⊢
  exact le_trans h₁ h₂

theorem rowLe_total : ∀ a b : Row, rowLe a b || rowLe b a := by
  intro a b
  simp only [rowLe, Bool.or_eq_true, decide_eq_true_eq]
  exact le_total a.date b.date

theorem prodDescLe_trans : ∀ a b c : JSVal × ℚ, prodDescLe a b = true →
    prodDescLe b c = true → prodDescLe a c = true := by
  intro a b c h₁ h₂
  simp only [prodDescLe, decide_eq_true_eq] at h₁ h₂ ⊢
  exact le_trans h₂ h₁

theorem prodDescLe_total : ∀ a b : JSVal × ℚ, prodDescLe a b || prodDescLe b a := by
  intro a b
  simp only [prodDescLe, Bool.or_eq_true, decide_eq_true_eq]
  exact le_total b.2 a.2

theorem monLe_trans : ∀ a b c : MonthlyRow, monLe a b = true →
    monLe b c = true → monLe a c = true :=
  fun _ _ _ h₁ h₂ => strLe_trans h₁ h₂

theorem monLe_total : ∀ a b : MonthlyRow, monLe a b || monLe b a :=
  fun a b => strLe_total a.key b.key

theorem foldl_add_eq (f : α → ℚ) : ∀ (l : List α) (s : ℚ),
    l.foldl (fun acc x => acc + f x) s = s + (l.map f).sum := by
  intro l
  induction l with
  | nil => intro s; simp
  | cons x xs ih =>
    intro s
    simp only [List.foldl_cons, ih, List.map_cons, List.sum_cons]
    ring

theorem sum_map_div_mul (l : List (JSVal × ℚ)) (t : ℚ) :
    (l.map (fun x => x.2 / t * 100)).sum = (l.map Prod.snd).sum / t * 100 := by
  induction l with
  | nil => simp
  | cons x xs ih =>
    simp only [List.map_cons, List.sum_cons, ih]
    ring

theorem sum_snd_productPairsSorted (rows : List Row) :
    ((productPairsSorted rows).map Prod.snd).sum = (rows.map (·.sales)).sum := by
  calc ((productPairsSorted rows).map Prod.snd).sum
      = ((productPairs rows).map Prod.snd).sum :=
        ((sortLe_perm prodDescLe (productPairs rows)).map Prod.snd).sum_eq
    _ = (([] : List (JSVal × ℚ)).map Prod.snd).sum + (rows.map (·.sales)).sum :=
        foldl_prodStep_sum rows []
    _ = (rows.map (·.sales)).sum := by simp

theorem map_total_sales_productTotalsArr (rows : List Row) :
    (productTotalsArrOf rows).map (·.total_sales)
      = (productPairsSorted rows).map Prod.snd := by
  rw [productTotalsArrOf, List.map_map]
  rfl

theorem totalAllOf_eq_sum (rows : List Row) :
    totalAllOf rows = ((productPairsSorted rows).map Prod.snd).sum := by
  rw [totalAllOf, foldl_add_eq (fun x => x.2) (productPairsSorted rows) 0]
  simp

/-! ### C1: grand total conservation -/

/-- C1.  Grand total conservation: for every input record array, the sum of
`total_sales` over the entries of `aggregate`'s product-totals output
equals the sum of `sales` over the entries of its rows output. -/
theorem grand_total_conservation (data : List RawRecord) :
    ((aggregate data).productTotalsArr.map (·.total_sales)).sum
      = ((aggregate data).rows.map (·.sales)).sum := by
  show ((productTotalsArrOf (sortedRows data)).map (·.total_sales)).sum
      = ((sortedRows data).map (·.sales)).sum
  rw [map_total_sales_productTotalsArr, sum_snd_productPairsSorted]

/-! ### C2: row validation -/

/-- C2.  Row validation: a record contributes a row exactly when its
resolved date parses and its resolved units, unit price and sales values
are all numbers (not `NaN`); the rows output is (a sorted permutation of)
the rows of the valid records, and invalid records are dropped without any
error output — `aggregate` returns no error structure at all. -/
theorem row_validation (data : List RawRecord) (r : RawRecord) :
    ((∃ row, toRow r = some row) ↔
      (dateOf r ≠ none ∧ unitsOf r ≠ none ∧ unitPriceOf r ≠ none ∧ salesOf r ≠ none))
  ∧ (aggregate data).rows.Perm (data.filterMap toRow) := by
  constructor
  · cases hd : dateOf r <;> cases hu : unitsOf r <;>
      cases hp : unitPriceOf r <;> cases hs : salesOf r <;>
      simp [toRow, hd, hu, hp, hs]
  · exact sortLe_perm rowLe (rowsUnsorted data)

/-! ### C8: row ordering and product-total ordering -/

/-- C8.  The rows output is sorted ascending by date timestamp; the sort is
stable (for every timestamp, the subsequence of rows with that timestamp is
exactly the corresponding subsequence of the cleaned rows in input order);
the product totals are sorted descending by `total_sales`. -/
theorem ordering_spec (data : List RawRecord) :
    ((aggregate data).rows.Pairwise (fun a b => a.date ≤ b.date))
  ∧ (∀ t : ℤ, (aggregate data).rows.filter (fun r => decide (r.date = t))
      = (data.filterMap toRow).filter (fun r => decide (r.date = t)))
  ∧ ((aggregate data).productTotalsArr.Pairwise
      (fun a b => b.total_sales ≤ a.total_sales)) := by
  refine ⟨?_, ?_, ?_⟩
  · have h := sortLe_pairwise rowLe_trans rowLe_total (rowsUnsorted data)
    exact h.imp fun hab => by simpa [rowLe] using hab
  · intro t
    exact sortLe_filter_stable _
      (fun a b ha hb => by
        have ha' := of_decide_eq_true ha
        have hb' := of_decide_eq_true hb
        exact decide_eq_true (show a.date ≤ b.date by rw [ha', hb']))
      (rowsUnsorted data)
  · have h := sortLe_pairwise prodDescLe_trans prodDescLe_total
      (productPairs (sortedRows data))
    have h2 : (productPairsSorted (sortedRows data)).Pairwise
        (fun a b : JSVal × ℚ => b.2 ≤ a.2) :=
      h.imp fun hab => by simpa [prodDescLe] using hab
    show ((productPairsSorted (sortedRows data)).map _).Pairwise _
    exact h2.map _ fun a b hab => hab

/-! ### C10: monthly rollup conservation -/

/-- C10.  Monthly rollup conservation: the bucket sales sum to the row
sales, the bucket transaction counts sum to the number of rows, and every
bucket counts at least one transaction. -/
theorem monthly_conservation (data : List RawRecord) :
    (((aggregate data).monthly.map (·.sales)).sum
        = ((aggregate data).rows.map (·.sales)).sum)
  ∧ (((aggregate data).monthly.map (·.transactions)).sum
        = (aggregate data).rows.length)
  ∧ (∀ b ∈ (aggregate data).monthly, 1 ≤ b.transactions) := by
  refine ⟨?_, ?_, ?_⟩
  · show ((monthlyOf (sortedRows data)).map (·.sales)).sum
        = ((sortedRows data).map (·.sales)).sum
    rw [monthlyOf, addPct_map_sales]
    calc ((monthlySortedOf (sortedRows data)).map (·.sales)).sum
        = (((monthlyMapOf (sortedRows data)).map Prod.snd).map (·.sales)).sum :=
          ((sortLe_perm monLe _).map (·.sales)).sum_eq
      _ = ((monthlyMapOf (sortedRows data)).map (fun e => e.2.sales)).sum := by
          rw [List.map_map]; rfl
      _ = ((sortedRows data).map (·.sales)).sum := by
          rw [monthlyMapOf, foldl_monthStep_sales_sum]; simp
  · show ((monthlyOf (sortedRows data)).map (·.transactions)).sum
        = (sortedRows data).length
    rw [monthlyOf, addPct_map_transactions]
    calc ((monthlySortedOf (sortedRows data)).map (·.transactions)).sum
        = (((monthlyMapOf (sortedRows data)).map Prod.snd).map (·.transactions)).sum :=
          ((sortLe_perm monLe _).map (·.transactions)).sum_eq
      _ = ((monthlyMapOf (sortedRows data)).map (fun e => e.2.transactions)).sum := by
          rw [List.map_map]; rfl
      _ = (sortedRows data).length := by
          rw [monthlyMapOf, foldl_monthStep_trans_sum]; simp
  · intro b hb
    have hmem : b.transactions ∈ ((monthlySortedOf (sortedRows data)).map (·.transactions)) := by
      rw [← addPct_map_transactions]
      exact List.mem_map_of_mem _ hb
    rcases List.mem_map.mp hmem with ⟨c, hc, hct⟩
    rcases List.mem_map.mp (mem_sortLe.mp hc) with ⟨e, he, hec⟩
    have hinv := foldl_monthStep_entryInv (sortedRows data) [] (by simp) e he
    rw [← hct, ← hec]
    exact hinv.2.1

/-! ### C5: percent of grand total -/

/-- C5.  Each product-totals entry's `percent` is its `total_sales` divided
by the grand total times 100 (0 when the grand total is 0); when the grand
total is nonzero the percents sum to exactly 100 (the model's arithmetic is
exact, which is within any floating-point tolerance); when it is 0 every
percent is 0. -/
theorem percent_spec (data : List RawRecord) :
    (∀ x ∈ (aggregate data).productTotalsArr,
        x.percent =
          if ((aggregate data).productTotalsArr.map (·.total_sales)).sum = 0 then 0
          else x.total_sales /
            ((aggregate data).productTotalsArr.map (·.total_sales)).sum * 100)
  ∧ (((aggregate data).productTotalsArr.map (·.total_sales)).sum ≠ 0 →
      ((aggregate data).productTotalsArr.map (·.percent)).sum = 100)
  ∧ (((aggregate data).productTotalsArr.map (·.total_sales)).sum = 0 →
      ∀ x ∈ (aggregate data).productTotalsArr, x.percent = 0) := by
  have hT : ((aggregate data).productTotalsArr.map (·.total_sales)).sum
      = totalAllOf (sortedRows data) := by
    show ((productTotalsArrOf (sortedRows data)).map (·.total_sales)).sum = _
    rw [map_total_sales_productTotalsArr, totalAllOf_eq_sum]
  refine ⟨?_, ?_, ?_⟩
  · intro x hx
    replace hx : x ∈ (productPairsSorted (sortedRows data)).map
        (fun pr => (⟨pr.1, pr.2,
          if totalAllOf (sortedRows data) = 0 then 0
          else pr.2 / totalAllOf (sortedRows data) * 100⟩ : ProductTotal)) := hx
    rcases List.mem_map.mp hx with ⟨pr, _, rfl⟩
    rw [hT]
  · intro hT0
    rw [hT] at hT0
    have hpc : ((aggregate data).productTotalsArr.map (·.percent))
        = (productPairsSorted (sortedRows data)).map
            (fun pr => pr.2 / totalAllOf (sortedRows data) * 100) := by
      show ((productPairsSorted (sortedRows data)).map _).map _ = _
      rw [List.map_map]
      refine List.map_congr_left fun a _ => ?_
      show (if totalAllOf (sortedRows data) = 0 then 0
        else a.2 / totalAllOf (sortedRows data) * 100) = _
      rw [if_neg hT0]
    rw [hpc, sum_map_div_mul, ← totalAllOf_eq_sum, div_self hT0, one_mul]
  · intro hT0 x hx
    rw [hT] at hT0
    replace hx : x ∈ (productPairsSorted (sortedRows data)).map
        (fun pr => (⟨pr.1, pr.2,
          if totalAllOf (sortedRows data) = 0 then 0
          else pr.2 / totalAllOf (sortedRows data) * 100⟩ : ProductTotal)) := hx
    rcases List.mem_map.mp hx with ⟨pr, _, rfl⟩
    show (if totalAllOf (sortedRows data) = 0 then 0
      else pr.2 / totalAllOf (sortedRows data) * 100) = 0
    rw [if_pos hT0]

/-! ### C7: forecast baselines -/

/-- C7.  `naive` is the sales of the last monthly bucket (0 when there are
no buckets); `ma` is the arithmetic mean of the sales of the last
`min(3, N)` buckets (0 when `N = 0`). -/
theorem baselines_spec (data : List RawRecord) :
    ((aggregate data).naive
        = (((aggregate data).monthly.getLast?).map (·.sales)).getD 0)
  ∧ ((aggregate data).ma
        = if (aggregate data).monthly.length = 0 then 0
          else (((aggregate data).monthly.map (·.sales)).drop
              ((aggregate data).monthly.length
                - min 3 (aggregate data).monthly.length)).sum
            / ((min 3 (aggregate data).monthly.length : ℕ) : ℚ)) := by
  constructor
  · show naiveOf (sortedRows data) = _
    rw [naiveOf, yOf, List.getLast?_map]
    rfl
  · have hma : (aggregate data).ma = maOf (sortedRows data) := rfl
    have hmon : (aggregate data).monthly = monthlyOf (sortedRows data) := rfl
    rw [hma, hmon]
    have hlen : (yOf (sortedRows data)).length
        = (monthlyOf (sortedRows data)).length := List.length_map _ _
    by_cases h : (monthlyOf (sortedRows data)).length = 0
    · have hk : kOf (sortedRows data) = 0 := by
        rw [kOf, hlen, h]
        omega
      rw [maOf, hk, if_neg (by simp), if_pos h]
    · have hk : kOf (sortedRows data) ≠ 0 := by
        rw [kOf, hlen]
        simp only [ne_eq, Nat.min_eq_zero_iff]
        omega
      rw [maOf, if_pos hk, if_neg h, kOf, hlen, ← List.sum_eq_foldl]
      rfl

/-! ### C3: percentage change -/

/-- C3.  The first monthly bucket has no `pct_change`; every bucket at
index `i ≥ 1` has `pct_change = (sales i - sales (i-1)) / sales (i-1) * 100`,
except that it is 0 when the previous bucket's sales are 0. -/
theorem pct_change_spec (data : List RawRecord) :
    (∀ b, (aggregate data).monthly.get? 0 = some b → b.pct_change = none)
  ∧ (∀ i a b, (aggregate data).monthly.get? i = some a →
      (aggregate data).monthly.get? (i + 1) = some b →
      b.pct_change = some (if a.sales = 0 then 0
        else (b.sales - a.sales) / a.sales * 100)) := by
  have hm : (aggregate data).monthly = addPct (monthlySortedOf (sortedRows data)) := rfl
  constructor
  · intro b hb
    rw [hm] at hb
    cases hl : monthlySortedOf (sortedRows data) with
    | nil => rw [hl] at hb; simp [addPct] at hb
    | cons x xs =>
      rw [hl] at hb
      simp only [addPct, List.get?_cons_zero, Option.some.injEq] at hb
      have hx : x ∈ monthlySortedOf (sortedRows data) := by
        rw [hl]; exact List.mem_cons_self _ _
      rcases List.mem_map.mp (mem_sortLe.mp hx) with ⟨e, he, hex⟩
      have hinv := foldl_monthStep_entryInv (sortedRows data) [] (by simp) e he
      rw [← hb, ← hex]
      exact hinv.2.2
  · intro i a b ha hb
    rw [hm] at ha hb
    cases hl : monthlySortedOf (sortedRows data) with
    | nil => rw [hl] at ha; simp [addPct] at ha
    | cons x xs =>
      rw [hl] at ha hb
      cases i with
      | zero =>
        simp only [addPct, List.get?_cons_zero, Option.some.injEq] at ha
        simp only [addPct, List.get?_cons_succ] at hb
        rw [addPctGo_head_pct hb, ha]
      | succ j =>
        simp only [addPct, List.get?_cons_succ] at ha hb
        exact addPctGo_pct xs x j ha hb

/-! ### C4: sales fallback -/

/-- The spec's condition for computing sales as `units * unit_price`: the
sales/revenue field (after alias resolution) is absent, `null`, the empty
string, or non-numeric. -/
def salesFallbackCond (r : RawRecord) : Bool :=
  match rawSalesOf r with
  | none => true
  | some v => v == JSVal.vStr "" || (jsToNumber v).isNone

/-- Scenario E of the spec: a record whose `sales` field is explicitly the
numeric string `"0"` while `units` and `unit_price` are nonzero. -/
def scenarioE : RawRecord :=
  [("date", JSVal.vStr "2024-01-15"), ("product", JSVal.vStr "A"),
   ("units", JSVal.vNum 3), ("unit_price", JSVal.vNum 5),
   ("sales", JSVal.vStr "0")]

/-- C4.  The resolved sales value is `units * unit_price` exactly when the
resolved sales/revenue field is absent/null, the empty string, or
non-numeric, and is the explicitly given value otherwise; in particular
(Scenario E) an explicit `"0"` wins over a nonzero `units * unit_price`. -/
theorem sales_fallback_spec (r : RawRecord) :
    (salesOf r = if salesFallbackCond r
      then numMul (unitsOf r) (unitPriceOf r)
      else jsNumberOpt (rawSalesOf r))
  ∧ salesOf scenarioE = some 0
  ∧ unitsOf scenarioE = some 3 ∧ unitPriceOf scenarioE = some 5
  ∧ numMul (unitsOf scenarioE) (unitPriceOf scenarioE) ≠ some 0 := by
  refine ⟨?_, ?_, by decide, by decide, ?_⟩
  · cases hraw : rawSalesOf r with
    | none => simp [salesOf, salesFallbackCond, hraw]
    | some v =>
      simp only [salesOf, salesFallbackCond, hraw]
      by_cases hv : v = JSVal.vStr "" ∨ jsToNumber v = none
      · have hb : (v == JSVal.vStr "" || (jsToNumber v).isNone) = true := by
          rcases hv with hv | hv
          · simp [hv]
          · simp [hv]
        rw [if_pos hv, hb, if_pos rfl]
      · have hb : (v == JSVal.vStr "" || (jsToNumber v).isNone) = false := by
          push_neg at hv
          simp [hv.1, Option.isNone_iff_eq_none, hv.2,
            Option.isSome_iff_ne_none]
        rw [if_neg hv, hb, if_neg (by simp)]
        rfl
  · have h : salesOf scenarioE = strToNum "0" := rfl
    have h2 : strToNum "0"
        = some ((1 : ℚ) * (((0 : ℕ) : ℚ) + ((0 : ℕ) : ℚ) / 10 ^ (0 : ℕ))) := rfl
    rw [h, h2]
    norm_num
  · have h : numMul (unitsOf scenarioE) (unitPriceOf scenarioE)
        = some ((3 : ℚ) * 5) := rfl
    rw [h]
    intro hc
    rw [Option.some.injEq] at hc
    norm_num at hc

/-! ### C6: monthly bucket keys -/

/-- The key format asserted by the spec: four digits, a hyphen, two digits
(`"YYYY-MM"`). -/
def isYYYYMMKey (s : String) : Bool :=
  match s.toList with
  | [a, b, c, d, '-', e, f] =>
    a.isDigit && b.isDigit && c.isDigit && d.isDigit && e.isDigit && f.isDigit
  | _ => false

/-- A single valid record dated in March of year 500 (a date JavaScript's
date parser accepts), whose month key has a three-digit year. -/
def cexData : List RawRecord :=
  [[("date", JSVal.vStr "0500-03-07"), ("product", JSVal.vStr "A"),
    ("units", JSVal.vNum 1), ("unit_price", JSVal.vNum 2),
    ("sales", JSVal.vNum 10)]]

/-- C6 counterexample.  `monthKey` does not pad the year: the record dated
0500-03-07 produces the bucket key `"500-03"`, which is not of the
four-digit-year `"YYYY-MM"` form the claim asserts. -/
theorem monthly_keys_counterexample :
    ((aggregate cexData).monthly.map (·.key)) = ["500-03"]
  ∧ isYYYYMMKey "500-03" = false := by
  constructor
  · decide
  · decide

/-- C6 (amended).  Bucket keys are pairwise distinct and strictly
increasing (in code-point order, the model of `localeCompare`), and each
key is the unpadded decimal year, a hyphen, and the two-digit zero-padded
month of some row's date — which is the `"YYYY-MM"` format exactly when
the year has four digits. -/
theorem monthly_keys_spec (data : List RawRecord) :
    (((aggregate data).monthly.map (·.key)).Nodup)
  ∧ ((aggregate data).monthly.Pairwise (fun a b => strLt a.key b.key = true))
  ∧ (∀ b ∈ (aggregate data).monthly, ∃ r ∈ (aggregate data).rows,
      b.key = toString (getFullYear r.date) ++ "-"
        ++ padStart2 (toString (getMonth r.date + 1))) := by
  have hinv := foldl_monthStep_entryInv (sortedRows data) [] (by simp)
  have hkeys : (aggregate data).monthly.map (·.key)
      = (monthlySortedOf (sortedRows data)).map (·.key) := addPct_map_key _
  have hndS : ((monthlySortedOf (sortedRows data)).map (·.key)).Nodup := by
    have hperm : ((monthlySortedOf (sortedRows data)).map (·.key)).Perm
        ((((monthlyMapOf (sortedRows data)).map Prod.snd)).map (·.key)) :=
      (sortLe_perm monLe _).map _
    rw [hperm.nodup_iff, List.map_map]
    have hcongr : (monthlyMapOf (sortedRows data)).map ((·.key) ∘ Prod.snd)
        = (monthlyMapOf (sortedRows data)).map Prod.fst :=
      List.map_congr_left fun e he => (hinv e he).1
    rw [hcongr]
    exact foldl_monthStep_nodupKeys (sortedRows data) [] (by simp)
  refine ⟨?_, ?_, ?_⟩
  · rw [hkeys]
    exact hndS
  · have hsorted := sortLe_pairwise monLe_trans monLe_total
      ((monthlyMapOf (sortedRows data)).map Prod.snd)
    have hne : (monthlySortedOf (sortedRows data)).Pairwise
        (fun a b => a.key ≠ b.key) := by
      rw [← List.pairwise_map (R := fun a b : String => a ≠ b)]
      exact hndS
    have hlt : (monthlySortedOf (sortedRows data)).Pairwise
        (fun a b => strLt a.key b.key = true) :=
      (hsorted.and hne).imp fun hab => strLt_of_strLe_of_ne hab.1 hab.2
    have : ((aggregate data).monthly.map (·.key)).Pairwise
        (fun a b : String => strLt a b = true) := by
      rw [hkeys, List.pairwise_map]
      exact hlt
    rw [List.pairwise_map] at this
    exact this
  · intro b hb
    have hbkey : b.key ∈ (monthlySortedOf (sortedRows data)).map (·.key) := by
      rw [← hkeys]
      exact List.mem_map_of_mem _ hb
    have hperm : ((monthlySortedOf (sortedRows data)).map (·.key)).Perm
        ((((monthlyMapOf (sortedRows data)).map Prod.snd)).map (·.key)) :=
      (sortLe_perm monLe _).map _
    rw [hperm.mem_iff, List.map_map] at hbkey
    rcases List.mem_map.mp hbkey with ⟨e, he, hek⟩
    rcases foldl_monthStep_origin (sortedRows data) []
      (fun r hr => hr) (by simp) e he with ⟨r, hr, hkey⟩
    refine ⟨r, hr, ?_⟩
    have : b.key = e.1 := by rw [← hek]; exact (hinv e he).1
    rw [this, hkey, monthKey]

/-! ### Concrete evaluations used by the witnesses -/

/-- One valid record: 2024-03-05, product A, 1 unit at 2, explicit sales 10. -/
def exData1 : List RawRecord :=
  [[("date", JSVal.vStr "2024-03-05"), ("product", JSVal.vStr "A"),
    ("units", JSVal.vNum 1), ("unit_price", JSVal.vNum 2),
    ("sales", JSVal.vNum 10)]]

def exB1 : MonthlyRow := ⟨"2024-03", 10, 1, none⟩

def exPT1 : ProductTotal := ⟨JSVal.vStr "A", 10, 100⟩

theorem exData1_monthly : (aggregate exData1).monthly = [exB1] := by
  have h : (aggregate exData1).monthly = [⟨"2024-03", 0 + 10, 0 + 1, none⟩] := rfl
  rw [h, exB1]
  norm_num

theorem exData1_products : (aggregate exData1).productTotalsArr = [exPT1] := by
  have h : (aggregate exData1).productTotalsArr
      = [⟨JSVal.vStr "A", 0 + 10,
          if (0 : ℚ) + (0 + 10) = 0 then 0
          else (0 + 10) / ((0 : ℚ) + (0 + 10)) * 100⟩] := rfl
  rw [h, exPT1]
  norm_num

/-- Two valid records in consecutive months with sales 100 and 300. -/
def exData2 : List RawRecord :=
  [[("date", JSVal.vStr "2024-01-15"), ("product", JSVal.vStr "A"),
    ("units", JSVal.vNum 1), ("unit_price", JSVal.vNum 2),
    ("sales", JSVal.vNum 100)],
   [("date", JSVal.vStr "2024-02-15"), ("product", JSVal.vStr "A"),
    ("units", JSVal.vNum 1), ("unit_price", JSVal.vNum 2),
    ("sales", JSVal.vNum 300)]]

def exB2a : MonthlyRow := ⟨"2024-01", 100, 1, none⟩

def exB2b : MonthlyRow := ⟨"2024-02", 300, 1, some 200⟩

theorem exData2_monthly : (aggregate exData2).monthly = [exB2a, exB2b] := by
  have h : (aggregate exData2).monthly =
      [⟨"2024-01", 0 + 100, 0 + 1, none⟩,
       setPctVal (0 + 100) ⟨"2024-02", 0 + 300, 0 + 1, none⟩] := rfl
  rw [h, exB2a, exB2b]
  norm_num [setPctVal]

/-! ### Witnesses -/

/-- Witness for C3 at `exData2`: the hypotheses of `pct_change_spec` hold
at indices 0 and 1, the first bucket has no `pct_change`, and the second
bucket's `pct_change` is the claimed formula (here `(300-100)/100*100`). -/
theorem pct_change_witness :
    (aggregate exData2).monthly.get? 0 = some exB2a
  ∧ (aggregate exData2).monthly.get? 1 = some exB2b
  ∧ exB2a.pct_change = none
  ∧ exB2b.pct_change = some (if exB2a.sales = 0 then 0
      else (exB2b.sales - exB2a.sales) / exB2a.sales * 100) := by
  have h0 : (aggregate exData2).monthly.get? 0 = some exB2a := by
    rw [exData2_monthly]; rfl
  have h1 : (aggregate exData2).monthly.get? 1 = some exB2b := by
    rw [exData2_monthly]; rfl
  exact ⟨h0, h1, (pct_change_spec exData2).1 exB2a h0,
    (pct_change_spec exData2).2 0 exB2a exB2b h0 h1⟩

/-- Witness for C5 at `exData1`: the single product total is in the output,
its percent follows the formula, the grand total is nonzero and the
percents sum to 100. -/
theorem percent_witness :
    exPT1 ∈ (aggregate exData1).productTotalsArr
  ∧ exPT1.percent =
      (if ((aggregate exData1).productTotalsArr.map (·.total_sales)).sum = 0 then 0
       else exPT1.total_sales /
         ((aggregate exData1).productTotalsArr.map (·.total_sales)).sum * 100)
  ∧ ((aggregate exData1).productTotalsArr.map (·.total_sales)).sum ≠ 0
  ∧ ((aggregate exData1).productTotalsArr.map (·.percent)).sum = 100 := by
  have hmem : exPT1 ∈ (aggregate exData1).productTotalsArr := by
    rw [exData1_products]
    exact List.mem_cons_self _ _
  have hT : ((aggregate exData1).productTotalsArr.map (·.total_sales)).sum ≠ 0 := by
    rw [exData1_products, exPT1]
    norm_num
  exact ⟨hmem, (percent_spec exData1).1 exPT1 hmem, hT,
    (percent_spec exData1).2.1 hT⟩

/-- Witness for the amended C6 at `exData1`: the single bucket is in the
monthly output and its key has the year-hyphen-padded-month form derived
from a row's date. -/
theorem monthly_keys_witness :
    exB1 ∈ (aggregate exData1).monthly
  ∧ ∃ r ∈ (aggregate exData1).rows,
      exB1.key = toString (getFullYear r.date) ++ "-"
        ++ padStart2 (toString (getMonth r.date + 1)) := by
  have hmem : exB1 ∈ (aggregate exData1).monthly := by
    rw [exData1_monthly]
    exact List.mem_cons_self _ _
  exact ⟨hmem, (monthly_keys_spec exData1).2.2 exB1 hmem⟩

/-- Witness for C10 at `exData1`: the single bucket is in the monthly
output and counts at least one transaction. -/
theorem monthly_conservation_witness :
    exB1 ∈ (aggregate exData1).monthly ∧ 1 ≤ exB1.transactions := by
  have hmem : exB1 ∈ (aggregate exData1).monthly := by
    rw [exData1_monthly]
    exact List.mem_cons_self _ _
  exact ⟨hmem, (monthly_conservation exData1).2.2 exB1 hmem⟩

end SalesForecast
